import Mathlib

/-!
Shallow embedding of the ConfigBits library (src/dist/ConfigBits.js).

JS numbers are modelled as rationals (every finite double is a rational and
all operations the code performs on them — comparisons, `ToInt32`,
`ToUint16` — are exact), the 32-bit coercions of the bitwise operators are
explicit, and thrown errors are the `error` case of an `Except` result.
-/

/-- ECMAScript truncation toward zero of a finite number. -/
def jsTrunc (q : ℚ) : Int :=
  if q < 0 then -((-q).num / ((-q).den : Int)) else q.num / (q.den : Int)

/-- The unsigned 32-bit representative of an integer (the bit pattern the
32-bit coercions work on). -/
def toUint32 (x : Int) : Nat := (x % 4294967296).toNat

/-- Reinterpret an unsigned 32-bit pattern as a signed 32-bit integer. -/
def ofUint32 (n : Nat) : Int :=
  if n < 2147483648 then (n : Int) else (n : Int) - 4294967296

/-- ECMAScript ToInt32 of an integer. -/
def toInt32 (x : Int) : Int := ofUint32 (toUint32 x)

/-- ECMAScript ToInt32 of a finite number. -/
def toInt32Q (q : ℚ) : Int := toInt32 (jsTrunc q)

/-- ECMAScript ToUint16, as applied by `String.fromCharCode`. -/
def toUint16 (q : ℚ) : Nat := (jsTrunc q % 65536).toNat

/-- JS `x & y` on already-integral operands: ToInt32 both sides, bitwise and
of the two's-complement bit patterns, result read back as signed 32-bit. -/
def jsAnd (x y : Int) : Int := ofUint32 (toUint32 x &&& toUint32 y)

/-- JS `x | y` on already-integral operands: ToInt32 both sides, bitwise or
of the two's-complement bit patterns, result read back as signed 32-bit. -/
def jsOrI (x y : Int) : Int := ofUint32 (toUint32 x ||| toUint32 y)

/-- JS `q >> k`: arithmetic shift of the ToInt32 value, count taken mod 32. -/
def jsShr (q : ℚ) (k : Nat) : Int := toInt32Q q / 2 ^ (k % 32)

/-- JS `q << k`: shift of the ToInt32 value, count mod 32, result wrapped to int32. -/
def jsShl (q : ℚ) (k : Nat) : Int := toInt32 (toInt32Q q * 2 ^ (k % 32))

/-- The two type tags a `BitMap` can carry (`Number` / `Boolean`). -/
inductive DType
  | number
  | boolean
deriving DecidableEq

/-- The error classes the library throws (`TypeError`, `RangeError`, and the
custom `TypeMismatchError` and `ArgumentError`). -/
inductive JsErr
  | typeError
  | rangeError
  | typeMismatchError
  | argumentError
deriving DecidableEq

/-- A constructed `BitMap`: `bits` is the stored char code read back by the
`bits` getter (`String.fromCharCode` / `charCodeAt` round the raw argument
through ToUint16). -/
structure BitMap where
  name : String
  bits : Nat
  dataType : DType
deriving DecidableEq

/-- A constructed `ConfigBits` schema: the `#bitMap` array. -/
structure ConfigBits where
  bitMap : List BitMap
deriving DecidableEq

/-- A value stored in a decoded object / passed in an encoding object
(the declared TS value type is `number | boolean`). -/
inductive ConfigValue
  | num (q : ℚ)
  | bool (b : Bool)
deriving DecidableEq

/-- A JS plain object (or `Map`) with `string` keys, as its internal
insertion-ordered entry list. -/
abbrev JsObject := List (String × ConfigValue)

/-- A JS value handed to `toObject` / `toMap` / `fromObject`. -/
inductive JsInput
  | num (q : ℚ)
  | boolv (b : Bool)
  | str (s : String)
  | obj (o : JsObject)
  | undef
  | nullv
deriving DecidableEq

/-- The `dataType` argument of the `BitMap` constructor. -/
inductive DTArg
  | number
  | boolean
  | other
deriving DecidableEq

/-- The `BitMap` constructor (src lines 63-82): name must be a `String`,
`bits` a `Number`; `bits > 32` is `RangeError` (checked before the data-type
checks); `Boolean` with `bits !== 1` is `TypeMismatchError`. -/
def bitMapNew (name : JsInput) (bits : JsInput) (dataType : DTArg) : Except JsErr BitMap :=
  match name with
  | .str s =>
    match bits with
    | .num q =>
      if q > 32 then .error .rangeError
      else if dataType = .other then .error .typeError
      else if dataType = .boolean ∧ q ≠ 1 then .error .typeMismatchError
      else .ok ⟨s, toUint16 q, if dataType = .boolean then .boolean else .number⟩
    | _ => .error .typeError
  | _ => .error .typeError

/-- An argument to the `ConfigBits` constructor: a `BitMap` instance or
anything else. -/
inductive CtorArg
  | bm (b : BitMap)
  | other
deriving DecidableEq

/-- The loop of the `ConfigBits` constructor (src lines 152-162): per element,
type check, add its bits to the running total, fail with `RangeError` as soon
as the total exceeds 32, else push. -/
def configBitsLoop : List CtorArg → Nat → List BitMap → Except JsErr ConfigBits
  | [], _, acc => .ok ⟨acc⟩
  | .other :: _, _, _ => .error .typeError
  | .bm b :: rest, totalBits, acc =>
    if totalBits + b.bits > 32 then .error .rangeError
    else configBitsLoop rest (totalBits + b.bits) (acc ++ [b])

/-- The `ConfigBits` constructor (src lines 147-163). -/
def configBitsNew (args : List CtorArg) : Except JsErr ConfigBits :=
  if args.isEmpty then .error .argumentError else configBitsLoop args 0 []

/-- Property read `o[k]` (first matching key; keys are unique in a JS object). -/
def objLookup (o : JsObject) (k : String) : Option ConfigValue := o.lookup k

/-- JS property write / `Map.set`: overwrite in place if the key exists
(keeping its position), else append. -/
def objSet (o : JsObject) (k : String) (v : ConfigValue) : JsObject :=
  if (objLookup o k).isSome then o.map (fun p => if p.1 = k then (k, v) else p)
  else o ++ [(k, v)]

/-- `object[name] || 0` followed by unary `+`: absent and falsy values give 0,
`true` gives 1, a number gives itself. -/
def orZero : Option ConfigValue → ℚ
  | some (.num q) => q
  | some (.bool b) => if b then 1 else 0
  | none => 0

/-- The value the `fromObject` loop reads for a field. -/
def fieldVal (o : JsObject) (f : BitMap) : ℚ := orZero (objLookup o f.name)

/-- The per-field value computed by the decode loops (src line 182-183):
`(integer >> position) & (2 ** bits - 1)`, wrapped by `!!` for `Boolean`. -/
def decVal (q : ℚ) (f : BitMap) (position : Nat) : ConfigValue :=
  let value := jsAnd (jsShr q position) (2 ^ f.bits - 1)
  if f.dataType = .boolean then .bool (value != 0) else .num value

/-- The loop of `toObject` (src lines 179-185). -/
def toObjectLoop (q : ℚ) : List BitMap → Nat → JsObject → JsObject
  | [], _, result => result
  | f :: rest, position, result =>
    toObjectLoop q rest (position + f.bits) (objSet result f.name (decVal q f position))

/-- `ConfigBits.prototype.toObject` (src lines 171-187). -/
def ConfigBits.toObject (cb : ConfigBits) (integer : JsInput) : Except JsErr JsObject :=
  match integer with
  | .num q =>
    if q > 4294967295 ∨ q < -2147483648 then .error .rangeError
    else .ok (toObjectLoop q cb.bitMap 0 [])
  | _ => .error .typeError

/-- The loop of `toMap` (src lines 203-209); `Map.set` has the same
update-in-place-or-append semantics as a property write. -/
def toMapLoop (q : ℚ) : List BitMap → Nat → JsObject → JsObject
  | [], _, result => result
  | f :: rest, position, result =>
    toMapLoop q rest (position + f.bits) (objSet result f.name (decVal q f position))

/-- `ConfigBits.prototype.toMap` (src lines 195-211). -/
def ConfigBits.toMap (cb : ConfigBits) (integer : JsInput) : Except JsErr JsObject :=
  match integer with
  | .num q =>
    if q > 4294967295 ∨ q < -2147483648 then .error .rangeError
    else .ok (toMapLoop q cb.bitMap 0 [])
  | _ => .error .typeError

/-- The loop of `fromObject` (src lines 224-229):
`result |= (+(object[name] || 0) << position)`. -/
def fromObjectLoop (o : JsObject) : List BitMap → Nat → Int → Int
  | [], _, result => result
  | f :: rest, position, result =>
    fromObjectLoop o rest (position + f.bits) (jsOrI result (jsShl (fieldVal o f) position))

/-- `ConfigBits.prototype.fromObject` (src lines 218-231). -/
def ConfigBits.fromObject (cb : ConfigBits) (object : JsInput) : Except JsErr Int :=
  match object with
  | .obj o => .ok (fromObjectLoop o cb.bitMap 0 0)
  | _ => .error .typeError

/-- Decimal value of a digit character. -/
def digitVal (c : Char) : Option Nat :=
  if c = '0' then some 0 else if c = '1' then some 1 else if c = '2' then some 2
  else if c = '3' then some 3 else if c = '4' then some 4 else if c = '5' then some 5
  else if c = '6' then some 6 else if c = '7' then some 7 else if c = '8' then some 8
  else if c = '9' then some 9 else none

/-- Decimal value of a digit string (`none` if a non-digit occurs). -/
def digitsVal : List Char → Option Nat → Option Nat
  | [], acc => acc
  | c :: cs, acc =>
    match digitVal c, acc with
    | some d, some a => digitsVal cs (some (10 * a + d))
    | _, _ => none

/-- Whether a string is an array-index key in the ECMAScript sense: the
canonical decimal form (digits only, no leading zero except `"0"` itself) of
an integer below 2^32 - 1. Such own keys are enumerated first, in ascending
numeric order. -/
def isArrayIndex (s : String) : Bool :=
  match s.data with
  | [] => false
  | ['0'] => true
  | '0' :: _ :: _ => false
  | cs =>
    match digitsVal cs (some 0) with
    | some n => decide (n < 4294967295)
    | none => false

/-- Numeric value of an array-index key. -/
def idxVal (p : String × ConfigValue) : Nat := (digitsVal p.1.data (some 0)).getD 0

/-- Insertion into a list sorted by array-index value. -/
def insertIdx (p : String × ConfigValue) : JsObject → JsObject
  | [] => [p]
  | q :: rest => if idxVal p ≤ idxVal q then p :: q :: rest else q :: insertIdx p rest

/-- Insertion sort by array-index value. -/
def sortIdx : JsObject → JsObject
  | [] => []
  | p :: rest => insertIdx p (sortIdx rest)

/-- The observable entry sequence of a plain JS object (`Object.entries`
order): array-index keys first in ascending numeric order, then the
remaining string keys in insertion order. -/
def objEntries (o : JsObject) : JsObject :=
  sortIdx (o.filter fun p => isArrayIndex p.1) ++ o.filter fun p => !isArrayIndex p.1

/-- Total width of a field list. -/
def sumBits : List BitMap → Nat
  | [] => 0
  | f :: rest => f.bits + sumBits rest

/-- The names of a field list, in order. -/
def fieldNames (L : List BitMap) : List String := L.map BitMap.name

/-- The spec's concrete scenario schema: `auto_save` (1 bit, Boolean),
`indent_type` (1 bit, Integer), `indent_size` (2 bits, Integer). -/
def cfgExample : ConfigBits :=
  ⟨[⟨"auto_save", 1, .boolean⟩, ⟨"indent_type", 1, .number⟩, ⟨"indent_size", 2, .number⟩]⟩

/-- A valid schema with a single 32-bit integer field. -/
def cfg32 : ConfigBits := ⟨[⟨"x", 32, .number⟩]⟩

/-- A valid schema with two 16-bit integer fields. -/
def cfgAB : ConfigBits := ⟨[⟨"a", 16, .number⟩, ⟨"b", 16, .number⟩]⟩

/-- A valid schema whose field names are array-index strings, declared in
descending numeric order. -/
def cfgNum : ConfigBits := ⟨[⟨"1", 1, .number⟩, ⟨"0", 1, .number⟩]⟩

/-- The entry list a run of the decode loop appends, starting from a given
position. -/
def decodeList (q : ℚ) : List BitMap → Nat → JsObject
  | [], _ => []
  | f :: rest, position => (f.name, decVal q f position) :: decodeList q rest (position + f.bits)

/-- The mathematically extracted per-field values of a nonnegative input. -/
def extNs (v : Nat) : List BitMap → Nat → List Nat
  | [], _ => []
  | f :: rest, position => ((v / 2 ^ position) % 2 ^ f.bits) :: extNs v rest (position + f.bits)

/-- Weighted sum of per-field values placed at their cumulative offsets. -/
def wsum : List BitMap → List Nat → Nat → Nat
  | f :: rest, n :: ns, position => n * 2 ^ position + wsum rest ns (position + f.bits)
  | _, _, _ => 0

/-- The object yields exactly these coerced numeric values for the fields. -/
def ValsMatch (o : JsObject) : List BitMap → List Nat → Prop
  | [], [] => True
  | f :: rest, n :: ns => fieldVal o f = (n : ℚ) ∧ ValsMatch o rest ns
  | _, _ => False

/-- Each value fits its field's declared width. -/
def FitsWidths : List BitMap → List Nat → Prop
  | [], [] => True
  | f :: rest, n :: ns => n < 2 ^ f.bits ∧ FitsWidths rest ns
  | _, _ => False

/-- The input value supplied for a field is a boolean or a nonnegative
integer, and its numeric coercion fits the field's declared width
(absent is fine). -/
def ValWithin (o : JsObject) (f : BitMap) : Prop :=
  match objLookup o f.name with
  | none => True
  | some (.num q) => q.den = 1 ∧ 0 ≤ q.num ∧ q.num < 2 ^ f.bits
  | some (.bool b) => (if b then 1 else 0 : Nat) < 2 ^ f.bits

instance (o : JsObject) (f : BitMap) : Decidable (ValWithin o f) := by
  unfold ValWithin
  cases hl : objLookup o f.name with
  | none => exact inferInstance
  | some v =>
    cases v with
    | num q => exact inferInstance
    | bool b => exact inferInstance

/-- The numeric coercion of a field's supplied value, as a natural number. -/
def valNat (o : JsObject) (f : BitMap) : Nat := (fieldVal o f).num.toNat

/-- The per-field decode value in the words of the spec (C7): extract `width`
bits starting at `offset`: arithmetic right-shift of the input by `offset`,
then mask with `(1 <<< width) - 1` (i.e. reduce mod `2 ^ width`); a Boolean
field yields `true` iff the extracted bit is 1, an Integer field yields the
extracted value as-is. -/
def specFieldValue (f : BitMap) (v : Int) (offset : Nat) : ConfigValue :=
  let extracted := v / 2 ^ offset % 2 ^ f.bits
  if f.dataType = .boolean then .bool (extracted == 1) else .num extracted

/-- All fields of width at most 31 decode to the spec formula's value, at
their cumulative offsets. -/
def DecodedOK (o : JsObject) (v : Int) : List BitMap → Nat → Prop
  | [], _ => True
  | f :: rest, offset =>
    (f.bits ≤ 31 → objLookup o f.name = some (specFieldValue f v offset)) ∧
    DecodedOK o v rest (offset + f.bits)

deriving instance DecidableEq for Except

/-! ### Numeric facts about the 32-bit coercions -/

theorem ofUint32_of_lt {n : Nat} (h : n < 2147483648) : ofUint32 n = (n : Int) := by
  simp [ofUint32, h]

theorem toInt32_of_range {x : Int} (h1 : -2147483648 ≤ x) (h2 : x < 2147483648) :
    toInt32 x = x := by
  unfold toInt32 ofUint32 toUint32
  split <;> omega

theorem toUint32_natCast {v : Nat} (h : v < 4294967296) : toUint32 (v : Int) = v := by
  unfold toUint32
  omega

theorem jsTrunc_intCast (v : Int) : jsTrunc ((v : Int) : ℚ) = v := by
  unfold jsTrunc
  by_cases h : ((v : Int) : ℚ) < 0
  · rw [if_pos h]
    have hneg : (-((v : Int) : ℚ)) = (((-v : Int)) : ℚ) := by push_cast; ring
    rw [hneg, Rat.num_intCast, Rat.den_intCast, Nat.cast_one, Int.ediv_one, neg_neg]
  · rw [if_neg h, Rat.num_intCast, Rat.den_intCast, Nat.cast_one, Int.ediv_one]


theorem jsTrunc_natCast (v : Nat) : jsTrunc ((v : Nat) : ℚ) = (v : Int) := by
  have h : ((v : Nat) : ℚ) = ((v : Int) : ℚ) := by push_cast; rfl
  rw [h, jsTrunc_intCast]

theorem toInt32Q_natCast {v : Nat} (h : v < 2147483648) : toInt32Q ((v : Nat) : ℚ) = (v : Int) := by
  rw [toInt32Q, jsTrunc_natCast]
  exact toInt32_of_range (by omega) (by omega)

/-! ### Bitwise-to-arithmetic bridges -/

theorem lor_mul_two_pow : ∀ (pos t a : Nat), a < 2 ^ pos → a ||| t * 2 ^ pos = a + t * 2 ^ pos := by
  intro pos
  induction pos with
  | zero =>
    intro t a ha
    have h0 : a = 0 := by omega
    subst h0
    simp
  | succ p ih =>
    intro t a ha
    have hpow : 2 ^ (p + 1) = 2 * 2 ^ p := by rw [pow_succ]; ring
    have hdiv : a / 2 < 2 ^ p := by omega
    calc a ||| t * 2 ^ (p + 1)
        = Nat.bit (decide (a % 2 = 1)) (a >>> 1) ||| Nat.bit false (t * 2 ^ p) := by
          rw [Nat.bit_decide_mod_two_eq_one_shiftRight_one]
          congr 1
          simp [Nat.bit, hpow]
          ring
      _ = Nat.bit (decide (a % 2 = 1) || false) ((a >>> 1) ||| t * 2 ^ p) :=
          Nat.lor_bit _ _ _ _
      _ = Nat.bit (decide (a % 2 = 1)) (a / 2 + t * 2 ^ p) := by
          rw [Bool.or_false, Nat.shiftRight_one, ih t (a / 2) hdiv]
      _ = a + t * 2 ^ (p + 1) := by
          rw [Nat.bit_val, hpow]
          have htoNat : (decide (a % 2 = 1)).toNat = a % 2 := by
            rcases Nat.mod_two_eq_zero_or_one a with h | h <;> simp [h]
          have hflip : t * (2 * 2 ^ p) = 2 * (t * 2 ^ p) := by ring
          rw [htoNat, hflip]
          omega

theorem jsAnd_mask_natCast (m b : Nat) (hm32 : m < 2147483648) (hb : b ≤ 32) :
    jsAnd ((m : Nat) : Int) (2 ^ b - 1) = ((m % 2 ^ b : Nat) : Int) := by
  have h1 : (1 : Nat) ≤ 2 ^ b := Nat.one_le_two_pow
  have hb32 : (2 : Nat) ^ b ≤ 2 ^ 32 := Nat.pow_le_pow_right (by norm_num) hb
  have hmask : ((2 : Int) ^ b - 1) = (((2 ^ b - 1 : Nat)) : Int) := by
    rw [Nat.cast_sub h1]
    push_cast
    ring
  have hmle := Nat.mod_le m (2 ^ b)
  rw [jsAnd, hmask, toUint32_natCast (by omega), toUint32_natCast (by omega),
      Nat.and_pow_two_sub_one_eq_mod, ofUint32_of_lt (by omega)]

theorem jsShr_natCast (v : Nat) (hv : v < 2147483648) (pos : Nat) :
    jsShr ((v : Nat) : ℚ) pos = ((v / 2 ^ (pos % 32) : Nat) : Int) := by
  rw [jsShr, toInt32Q_natCast hv]
  have hc : ((2 : Int) ^ (pos % 32)) = (((2 ^ (pos % 32) : Nat)) : Int) := by
    push_cast
    ring
  rw [hc, ← Int.ofNat_ediv]

theorem decode_extract (v pos b : Nat) (hv : v < 2147483648) (hpb : pos + b ≤ 32) :
    jsAnd (jsShr ((v : Nat) : ℚ) pos) (2 ^ b - 1) = ((v / 2 ^ pos % 2 ^ b : Nat) : Int) := by
  have hdle := Nat.div_le_self v (2 ^ pos)
  rcases Nat.lt_or_ge pos 32 with h32 | h32
  · rw [jsShr_natCast v hv pos, Nat.mod_eq_of_lt h32,
      jsAnd_mask_natCast _ b (by omega) (by omega)]
  · have hp : pos = 32 := by omega
    have hb0 : b = 0 := by omega
    subst hp
    subst hb0
    rw [jsShr_natCast v hv 32]
    have h0 : (32 : Nat) % 32 = 0 := by norm_num
    rw [h0, jsAnd_mask_natCast _ 0 (by simpa [h0] using (by omega : v / 2 ^ 0 < 2147483648)) (by omega)]
    simp [Nat.mod_one]

theorem jsShl_natCast (n pos : Nat) (h : n * 2 ^ pos < 2147483648) :
    jsShl ((n : Nat) : ℚ) pos = ((n * 2 ^ pos : Nat) : Int) := by
  have h2 : (1 : Nat) ≤ 2 ^ pos := Nat.one_le_two_pow
  have hle : n ≤ n * 2 ^ pos := by
    calc n = n * 1 := by ring
    _ ≤ n * 2 ^ pos := Nat.mul_le_mul_left n h2
  rw [jsShl, toInt32Q_natCast (by omega)]
  rcases Nat.lt_or_ge pos 32 with h32 | h32
  · rw [Nat.mod_eq_of_lt h32]
    have hc : ((n : Int) * (2 : Int) ^ pos) = ((n * 2 ^ pos : Nat) : Int) := by
      push_cast
      ring
    rw [hc, toInt32_of_range (by omega) (by omega)]
  · have hpow : (2 : Nat) ^ 32 ≤ 2 ^ pos := Nat.pow_le_pow_right (by norm_num) h32
    have hn0 : n = 0 := by
      rcases Nat.eq_zero_or_pos n with hz | hz
      · exact hz
      · exfalso
        have : 2 ^ pos ≤ n * 2 ^ pos := Nat.le_mul_of_pos_left _ hz
        omega
    subst hn0
    rw [Nat.cast_zero, zero_mul, toInt32_of_range (by norm_num) (by norm_num)]
    simp

theorem jsOrI_add (a n pos : Nat) (ha : a < 2 ^ pos) (hsum : a + n * 2 ^ pos < 2147483648) :
    jsOrI ((a : Nat) : Int) ((n * 2 ^ pos : Nat) : Int) = ((a + n * 2 ^ pos : Nat) : Int) := by
  rw [jsOrI, toUint32_natCast (by omega), toUint32_natCast (by omega),
      lor_mul_two_pow pos n a ha, ofUint32_of_lt (by omega)]

/-! ### Lookup and insertion lemmas for the object model -/

theorem objLookup_cons_self (k : String) (v : ConfigValue) (o : JsObject) :
    objLookup ((k, v) :: o) k = some v := by
  simp [objLookup, List.lookup]

theorem objLookup_cons_ne (k k2 : String) (v : ConfigValue) (o : JsObject) (h : k ≠ k2) :
    objLookup ((k2, v) :: o) k = objLookup o k := by
  have hb : (k == k2) = false := beq_eq_false_iff_ne.mpr h
  simp [objLookup, List.lookup, hb]

theorem objLookup_append_of_none (pre l : JsObject) (k : String)
    (h : objLookup pre k = none) : objLookup (pre ++ l) k = objLookup l k := by
  induction pre with
  | nil => rfl
  | cons p pre ih =>
    obtain ⟨pk, pv⟩ := p
    by_cases hk : k = pk
    · subst hk
      rw [objLookup_cons_self] at h
      cases h
    · rw [objLookup_cons_ne k pk pv pre hk] at h
      rw [List.cons_append, objLookup_cons_ne k pk pv _ hk]
      exact ih h

theorem objSet_of_none (o : JsObject) (k : String) (v : ConfigValue)
    (h : objLookup o k = none) : objSet o k v = o ++ [(k, v)] := by
  rw [objSet, h]
  rfl

theorem fieldNames_cons (f : BitMap) (rest : List BitMap) :
    fieldNames (f :: rest) = f.name :: fieldNames rest := rfl

theorem toObjectLoop_append (q : ℚ) :
    ∀ (L : List BitMap) (pos : Nat) (acc : JsObject),
      (fieldNames L).Nodup → (∀ f ∈ L, objLookup acc f.name = none) →
      toObjectLoop q L pos acc = acc ++ decodeList q L pos := by
  intro L
  induction L with
  | nil =>
    intro pos acc _ _
    simp [toObjectLoop, decodeList]
  | cons f rest ih =>
    intro pos acc hnd hfresh
    rw [toObjectLoop, decodeList]
    have hf : objLookup acc f.name = none := hfresh f (by simp)
    rw [objSet_of_none acc f.name _ hf]
    rw [fieldNames_cons, List.nodup_cons] at hnd
    rw [ih (pos + f.bits) (acc ++ [(f.name, decVal q f pos)]) hnd.2 ?fresh]
    · simp
    case fresh =>
      intro g hg
      have hgname : g.name ≠ f.name := by
        intro heq
        exact hnd.1 (heq ▸ List.mem_map_of_mem BitMap.name hg)
      have hgacc : objLookup acc g.name = none := hfresh g (by simp [hg])
      rw [objLookup_append_of_none acc _ _ hgacc,
          objLookup_cons_ne _ _ _ _ hgname]
      rfl

/-! ### The decoded object's values, and the encode loop's arithmetic -/

theorem valsMatch_decode (v : Nat) (hv : v < 2147483648) :
    ∀ (L : List BitMap) (pos : Nat) (pre : JsObject),
      (fieldNames L).Nodup →
      (∀ f ∈ L, f.dataType = DType.boolean → f.bits = 1) →
      (∀ f ∈ L, objLookup pre f.name = none) →
      pos + sumBits L ≤ 32 →
      ValsMatch (pre ++ decodeList ((v : Nat) : ℚ) L pos) L (extNs v L pos) := by
  intro L
  induction L with
  | nil =>
    intro pos pre _ _ _ _
    trivial
  | cons f rest ih =>
    intro pos pre hnd hwf hfresh hsum
    rw [fieldNames_cons, List.nodup_cons] at hnd
    rw [sumBits] at hsum
    have hf : objLookup pre f.name = none := hfresh f (by simp)
    rw [decodeList, extNs]
    refine ⟨?head, ?tail⟩
    case head =>
      have hlk : objLookup (pre ++ (f.name, decVal ((v : Nat) : ℚ) f pos) ::
          decodeList ((v : Nat) : ℚ) rest (pos + f.bits)) f.name
          = some (decVal ((v : Nat) : ℚ) f pos) := by
        rw [objLookup_append_of_none pre _ _ hf, objLookup_cons_self]
      rw [fieldVal, hlk]
      have hext := decode_extract v pos f.bits hv (by omega)
      simp only [decVal]
      by_cases hbool : f.dataType = DType.boolean
      · have hb1 : f.bits = 1 := hwf f (by simp) hbool
        rw [if_pos hbool]
        rw [hb1] at hext ⊢
        rw [hext]
        have h01 : v / 2 ^ pos % 2 ^ 1 = 0 ∨ v / 2 ^ pos % 2 ^ 1 = 1 := by omega
        rcases h01 with h | h <;> rw [h] <;> norm_num [orZero]
      · rw [if_neg hbool, hext]
        simp only [orZero]
        norm_cast
    case tail =>
      rw [List.append_cons]
      apply ih (pos + f.bits) _ hnd.2 (fun g hg => hwf g (by simp [hg])) ?fresh (by omega)
      case fresh =>
        intro g hg
        have hgname : g.name ≠ f.name := by
          intro heq
          exact hnd.1 (heq ▸ List.mem_map_of_mem BitMap.name hg)
        have hgacc : objLookup pre g.name = none := hfresh g (by simp [hg])
        rw [objLookup_append_of_none pre _ _ hgacc,
            objLookup_cons_ne _ _ _ _ hgname]
        rfl

theorem fitsWidths_extNs (v : Nat) :
    ∀ (L : List BitMap) (pos : Nat), FitsWidths L (extNs v L pos) := by
  intro L
  induction L with
  | nil => intro pos; trivial
  | cons f rest ih =>
    intro pos
    exact ⟨Nat.mod_lt _ (Nat.two_pow_pos f.bits), ih (pos + f.bits)⟩

theorem wsum_extNs (v : Nat) :
    ∀ (L : List BitMap) (pos : Nat),
      v % 2 ^ pos + wsum L (extNs v L pos) pos = v % 2 ^ (pos + sumBits L) := by
  intro L
  induction L with
  | nil =>
    intro pos
    simp [wsum, extNs, sumBits]
  | cons f rest ih =>
    intro pos
    rw [extNs, wsum, sumBits]
    have hkey : v % 2 ^ pos + v / 2 ^ pos % 2 ^ f.bits * 2 ^ pos = v % 2 ^ (pos + f.bits) := by
      rw [pow_add, Nat.mod_mul]
      ring
    calc v % 2 ^ pos + (v / 2 ^ pos % 2 ^ f.bits * 2 ^ pos +
          wsum rest (extNs v rest (pos + f.bits)) (pos + f.bits))
        = (v % 2 ^ pos + v / 2 ^ pos % 2 ^ f.bits * 2 ^ pos) +
          wsum rest (extNs v rest (pos + f.bits)) (pos + f.bits) := by ring
      _ = v % 2 ^ (pos + f.bits) +
          wsum rest (extNs v rest (pos + f.bits)) (pos + f.bits) := by rw [hkey]
      _ = v % 2 ^ (pos + f.bits + sumBits rest) := ih (pos + f.bits)
      _ = v % 2 ^ (pos + (f.bits + sumBits rest)) := by rw [Nat.add_assoc]

theorem wsum_lt (L : List BitMap) :
    ∀ (ns : List Nat) (pos : Nat), FitsWidths L ns →
      wsum L ns pos + 2 ^ pos ≤ 2 ^ (pos + sumBits L) := by
  induction L with
  | nil =>
    intro ns pos _
    simp [wsum, sumBits]
  | cons f rest ih =>
    intro ns pos hfw
    cases ns with
    | nil => exact absurd hfw (by simp [FitsWidths])
    | cons n ns =>
      obtain ⟨hfit, hfw2⟩ := hfw
      rw [wsum, sumBits]
      have h1 := ih ns (pos + f.bits) hfw2
      calc n * 2 ^ pos + wsum rest ns (pos + f.bits) + 2 ^ pos
          = wsum rest ns (pos + f.bits) + (n + 1) * 2 ^ pos := by ring
        _ ≤ wsum rest ns (pos + f.bits) + 2 ^ f.bits * 2 ^ pos := by
            have h2 : (n + 1) * 2 ^ pos ≤ 2 ^ f.bits * 2 ^ pos :=
              Nat.mul_le_mul_right _ (by omega)
            omega
        _ = wsum rest ns (pos + f.bits) + 2 ^ (pos + f.bits) := by
            rw [pow_add]
            ring
        _ ≤ 2 ^ (pos + f.bits + sumBits rest) := h1
        _ = 2 ^ (pos + (f.bits + sumBits rest)) := by rw [Nat.add_assoc]

theorem fromObjectLoop_eq (o : JsObject) :
    ∀ (L : List BitMap) (ns : List Nat) (pos : Nat) (a : Nat),
      ValsMatch o L ns → FitsWidths L ns → a < 2 ^ pos →
      a + wsum L ns pos < 2147483648 →
      fromObjectLoop o L pos ((a : Nat) : Int) = ((a + wsum L ns pos : Nat) : Int) := by
  intro L
  induction L with
  | nil =>
    intro ns pos a hvm _ _ _
    simp [fromObjectLoop, wsum]
  | cons f rest ih =>
    intro ns pos a hvm hfw ha hsum
    cases ns with
    | nil => exact absurd hvm (by simp [ValsMatch])
    | cons n ns =>
      obtain ⟨hval, hvm2⟩ := hvm
      obtain ⟨hfit, hfw2⟩ := hfw
      rw [wsum] at hsum
      rw [fromObjectLoop, hval,
        jsShl_natCast n pos (by omega), jsOrI_add a n pos ha (by omega)]
      have ha2 : a + n * 2 ^ pos < 2 ^ (pos + f.bits) := by
        calc a + n * 2 ^ pos < 2 ^ pos + n * 2 ^ pos := by omega
          _ = (n + 1) * 2 ^ pos := by ring
          _ ≤ 2 ^ f.bits * 2 ^ pos := Nat.mul_le_mul_right _ (by omega)
          _ = 2 ^ (pos + f.bits) := by rw [pow_add]; ring
      rw [ih ns (pos + f.bits) (a + n * 2 ^ pos) hvm2 hfw2 ha2 (by omega)]
      rw [wsum]
      congr 1
      ring

theorem configBitsLoop_range (b : BitMap) (rest : List CtorArg) :
    ∀ (pre : List BitMap) (total : Nat) (acc : List BitMap),
      total + sumBits pre ≤ 32 → 32 < total + sumBits pre + b.bits →
      configBitsLoop (pre.map CtorArg.bm ++ CtorArg.bm b :: rest) total acc =
        .error .rangeError := by
  intro pre
  induction pre with
  | nil =>
    intro total acc h1 h2
    rw [sumBits] at h1 h2
    simp only [List.map_nil, List.nil_append, configBitsLoop]
    rw [if_pos (by omega)]
  | cons p pre ih =>
    intro total acc h1 h2
    rw [sumBits] at h1 h2
    simp only [List.map_cons, List.cons_append, configBitsLoop]
    rw [if_neg (by omega)]
    exact ih (total + p.bits) (acc ++ [p]) (by omega) (by omega)

/-! ### Claim theorems -/

/-- C1 (corrected): the round trip `fromObject (toObject v) = v` holds for
every schema of constructed `BitMap`s with pairwise distinct field names and
total width at most 32, for every `v` with `0 ≤ v ≤ 2^w - 1` that is also
below `2^31` (for a 32-bit schema the values `2^31 ≤ v < 2^32` decode and
re-encode to the signed 32-bit value `v - 2^32` instead, see the
counterexample). -/
theorem roundTrip_amended (cb : ConfigBits)
    (hwf : ∀ f ∈ cb.bitMap, f.dataType = DType.boolean → f.bits = 1)
    (hnd : (fieldNames cb.bitMap).Nodup)
    (hsum : sumBits cb.bitMap ≤ 32)
    (v : Nat) (hv31 : v < 2147483648) (hvw : v < 2 ^ sumBits cb.bitMap) :
    (cb.toObject (.num ((v : Nat) : ℚ))).bind (fun o => cb.fromObject (.obj o)) =
      .ok ((v : Nat) : Int) := by
  have hguard : ¬(((v : Nat) : ℚ) > 4294967295 ∨ ((v : Nat) : ℚ) < -2147483648) := by
    push_neg
    refine ⟨?_, ?_⟩
    · exact_mod_cast (by omega : v ≤ 4294967295)
    · exact le_trans (by norm_num) (Nat.cast_nonneg v)
  simp only [ConfigBits.toObject]
  rw [if_neg hguard]
  simp only [Except.bind]
  rw [toObjectLoop_append ((v : Nat) : ℚ) cb.bitMap 0 [] hnd (by intro f _; rfl),
      List.nil_append]
  simp only [ConfigBits.fromObject]
  have hvm := valsMatch_decode v hv31 cb.bitMap 0 [] hnd hwf (by intro f _; rfl) (by omega)
  rw [List.nil_append] at hvm
  have hws := wsum_extNs v cb.bitMap 0
  have hws0 : wsum cb.bitMap (extNs v cb.bitMap 0) 0 = v := by
    have h1 : v % 2 ^ (0 : Nat) = 0 := by omega
    have h2 : v % 2 ^ (0 + sumBits cb.bitMap) = v := by
      rw [Nat.zero_add]
      exact Nat.mod_eq_of_lt hvw
    omega
  have henc := fromObjectLoop_eq (decodeList ((v : Nat) : ℚ) cb.bitMap 0) cb.bitMap
    (extNs v cb.bitMap 0) 0 0 hvm (fitsWidths_extNs v cb.bitMap 0) (by norm_num) (by omega)
  rw [hws0] at henc
  rw [Nat.zero_add] at henc
  simpa using henc

/-- C1 witness: the amended round trip instantiated on the spec's concrete
schema at `v = 13`. -/
theorem roundTrip_amended_witness :
    (cfgExample.toObject (.num ((13 : Nat) : ℚ))).bind
      (fun o => cfgExample.fromObject (.obj o)) = .ok ((13 : Nat) : Int) :=
  roundTrip_amended cfgExample (by decide) (by decide) (by decide) 13 (by norm_num) (by decide)

/-- C1 counterexample: on the valid single-field 32-bit schema, the value
`2^31` (inside `[0, 2^w - 1]` for `w = 32`) round-trips to `-2^31`, not to
itself, because the JS bitwise operators work on signed 32-bit integers. -/
theorem roundTrip_counterexample :
    (cfg32.toObject (.num 2147483648)).bind (fun o => cfg32.fromObject (.obj o)) =
      .ok (-2147483648) ∧ (-2147483648 : Int) ≠ 2147483648 := by
  exact ⟨by decide, by decide⟩

/-- C5 (confirmed): if the arguments begin with `BitMap`s whose running width
total first exceeds 32 at the last of them, construction fails with
`RangeError`, whatever comes after — in particular a non-`BitMap` later in
the list does not turn the error into a `TypeError`. -/
theorem configBitsNew_incremental_range (pre : List BitMap) (b : BitMap) (rest : List CtorArg)
    (h1 : sumBits pre ≤ 32) (h2 : 32 < sumBits pre + b.bits) :
    configBitsNew (pre.map CtorArg.bm ++ CtorArg.bm b :: rest) = .error .rangeError := by
  rw [configBitsNew, if_neg ?nonempty]
  · exact configBitsLoop_range b rest pre 0 [] (by omega) (by omega)
  case nonempty => cases pre <;> simp

/-- C5 witness: 20 + 20 bits overflow at the second field; the third argument
is not a `BitMap` and is never examined. -/
theorem configBitsNew_incremental_range_witness :
    configBitsNew [.bm ⟨"a", 20, .number⟩, .bm ⟨"b", 20, .number⟩, .other] =
      .error .rangeError :=
  configBitsNew_incremental_range [⟨"a", 20, .number⟩] ⟨"b", 20, .number⟩ [.other]
    (by decide) (by decide)

/-- C6 (confirmed): on the concrete schema `auto_save`(1, Boolean),
`indent_type`(1, Integer), `indent_size`(2, Integer), encoding
`{auto_save: true, indent_type: 0, indent_size: 3}` yields 13, and decoding
13 yields exactly that mapping. -/
theorem example_scenario_roundtrip :
    cfgExample.fromObject (.obj [("auto_save", .bool true), ("indent_type", .num 0),
      ("indent_size", .num 3)]) = .ok 13 ∧
    cfgExample.toObject (.num 13) = .ok [("auto_save", .bool true), ("indent_type", .num 0),
      ("indent_size", .num 3)] := by
  decide

/-- C9 (corrected): a Boolean `BitMap` of any width other than 1 that also
passes the earlier width check (width at most 32) fails with the
`TypeMismatchError` the spec calls `KindMismatch`; for widths above 32 the
`RangeError` check fires first (see the counterexample). -/
theorem bitMap_boolean_width_amended (s : String) (q : ℚ) (hle : ¬q > 32) (hne : q ≠ 1) :
    bitMapNew (.str s) (.num q) .boolean = .error .typeMismatchError := by
  simp only [bitMapNew]
  rw [if_neg hle, if_neg (by decide), if_pos ⟨by trivial, hne⟩]

/-- C9 witness: the spec's own instance, width 2. -/
theorem bitMap_boolean_width_amended_witness :
    bitMapNew (.str "flag") (.num 2) .boolean = .error .typeMismatchError :=
  bitMap_boolean_width_amended "flag" 2 (by norm_num) (by norm_num)

/-- C9 counterexample: a Boolean `BitMap` of width 33 does not fail with
`KindMismatch` — the width check fires first with `RangeError`. -/
theorem bitMap_boolean_width_counterexample :
    bitMapNew (.str "x") (.num 33) .boolean = .error .rangeError ∧
    bitMapNew (.str "x") (.num 33) .boolean ≠ .error .typeMismatchError := by
  decide

theorem objLookup_append (o l : JsObject) (g : String) :
    objLookup (o ++ l) g =
      match objLookup o g with
      | some w => some w
      | none => objLookup l g := by
  induction o with
  | nil => rfl
  | cons p o ih =>
    obtain ⟨pk, pv⟩ := p
    by_cases hk : g = pk
    · subst hk
      rw [List.cons_append, objLookup_cons_self, objLookup_cons_self]
    · rw [List.cons_append, objLookup_cons_ne g pk pv _ hk, objLookup_cons_ne g pk pv o hk, ih]

theorem fromObjectLoop_empty : ∀ (L : List BitMap) (pos : Nat),
    fromObjectLoop [] L pos 0 = 0 := by
  intro L
  induction L with
  | nil => intro pos; rfl
  | cons f rest ih =>
    intro pos
    rw [fromObjectLoop]
    have hfv : fieldVal [] f = 0 := rfl
    have hshl : jsShl (0 : ℚ) pos = 0 := by
      rw [jsShl]
      have h0 : toInt32Q (0 : ℚ) = 0 := by decide
      rw [h0, zero_mul]
      decide
    have hor : jsOrI 0 0 = 0 := by decide
    rw [hfv, hshl, hor]
    exact ih (pos + f.bits)

theorem fromObjectLoop_congr (o o2 : JsObject)
    (h : ∀ f : BitMap, fieldVal o f = fieldVal o2 f) :
    ∀ (L : List BitMap) (pos : Nat) (a : Int),
      fromObjectLoop o L pos a = fromObjectLoop o2 L pos a := by
  intro L
  induction L with
  | nil => intro pos a; rfl
  | cons f rest ih =>
    intro pos a
    rw [fromObjectLoop, fromObjectLoop, h f, ih (pos + f.bits)]

/-- C2 (corrected): the `BitMap` constructor rejects a non-string name and a
non-numeric width with a `TypeError`, but it accepts the empty name and every
numeric width not exceeding 32 — including 0, negative and fractional widths
(the stored width is the ToUint16 image of the argument). -/
theorem bitMap_ctor_amended (nm bits : JsInput) (dt : DTArg) (s : String) (q : ℚ) :
    ((∀ t, nm ≠ .str t) → bitMapNew nm bits dt = .error .typeError) ∧
    ((∀ r, bits ≠ .num r) → bitMapNew (.str s) bits dt = .error .typeError) ∧
    (¬q > 32 → bitMapNew (.str s) (.num q) .number = .ok ⟨s, toUint16 q, .number⟩) := by
  refine ⟨?_, ?_, ?_⟩
  · intro h
    cases nm <;> first | rfl | exact absurd rfl (h _)
  · intro h
    cases bits <;> first | rfl | exact absurd rfl (h _)
  · intro h
    simp only [bitMapNew]
    rw [if_neg h, if_neg (by decide), if_neg (by simp), if_neg (by decide)]

/-- C2 witness: the empty name with the negative width `-3` is accepted (the
width is stored as its ToUint16 image 65533), where the claim demands an
`InvalidArgument` failure. -/
theorem bitMap_ctor_amended_witness :
    bitMapNew (.str "") (.num (-3)) .number = .ok ⟨"", toUint16 (-3), .number⟩ :=
  (bitMap_ctor_amended (.str "") (.num (-3)) .number "" (-3)).2.2 (by norm_num)

/-- C2 counterexample: constructing a `BitMap` with the empty name and width
0 — both malformed according to the claim — succeeds instead of raising. -/
theorem bitMap_ctor_counterexample :
    bitMapNew (.str "") (.num 0) .number = .ok ⟨"", 0, .number⟩ := by
  decide

/-- C3 (corrected): `toObject` accepts every finite number in
`[-2^31, 2^32 - 1]`, integral or not (a fractional input is truncated by
ToInt32, not rejected); it fails with `RangeError` outside that range and
with `TypeError` on every non-number input. There is no integrality check. -/
theorem toObject_domain_amended (cb : ConfigBits) (q : ℚ) (x : JsInput) :
    (¬(q > 4294967295 ∨ q < -2147483648) →
      cb.toObject (.num q) = .ok (toObjectLoop q cb.bitMap 0 [])) ∧
    ((q > 4294967295 ∨ q < -2147483648) → cb.toObject (.num q) = .error .rangeError) ∧
    ((∀ r, x ≠ .num r) → cb.toObject x = .error .typeError) := by
  refine ⟨?_, ?_, ?_⟩
  · intro h
    simp only [ConfigBits.toObject]
    rw [if_neg h]
  · intro h
    simp only [ConfigBits.toObject]
    rw [if_pos h]
  · intro h
    cases x <;> first | rfl | exact absurd rfl (h _)

/-- C3 witness: 5000000000 exceeds `2^32 - 1`, so decoding fails with
`RangeError`. -/
theorem toObject_domain_amended_witness :
    cfgExample.toObject (.num 5000000000) = .error .rangeError :=
  (toObject_domain_amended cfgExample 5000000000 .undef).2.1 (by norm_num)

/-- C3 counterexample: the non-integral input 1.5 is accepted — it decodes
(as its ToInt32 truncation 1) instead of failing with `TypeMismatch` as the
claim requires. -/
theorem toObject_domain_counterexample :
    cfgExample.toObject (.num (Rat.divInt 3 2)) =
      .ok [("auto_save", .bool true), ("indent_type", .num 0), ("indent_size", .num 0)] := by
  decide

/-- C10 (confirmed): encoding the empty mapping yields 0 on every schema,
and a field name absent from the input mapping is treated exactly as the
value 0 — absent fields contribute nothing. -/
theorem fromObject_missing_defaults (cb : ConfigBits) (o : JsObject) (k : String) :
    cb.fromObject (.obj []) = .ok 0 ∧
    (objLookup o k = none →
      cb.fromObject (.obj (objSet o k (.num 0))) = cb.fromObject (.obj o)) := by
  constructor
  · simp only [ConfigBits.fromObject]
    rw [fromObjectLoop_empty cb.bitMap 0]
  · intro hnone
    simp only [ConfigBits.fromObject]
    congr 1
    apply fromObjectLoop_congr
    intro f
    rw [objSet_of_none o k _ hnone, fieldVal, fieldVal, objLookup_append]
    cases hl : objLookup o f.name with
    | some w => rfl
    | none =>
      by_cases hfk : f.name = k
      · subst hfk
        rw [objLookup_cons_self]
        rfl
      · rw [objLookup_cons_ne _ _ _ _ hfk]
        rfl

/-- C10 witness: on the concrete schema, setting the absent key `auto_save`
to 0 leaves the encoding of `{zzz: 1}` unchanged. -/
theorem fromObject_missing_defaults_witness :
    cfgExample.fromObject (.obj (objSet [("zzz", .num 1)] "auto_save" (.num 0))) =
      cfgExample.fromObject (.obj [("zzz", .num 1)]) :=
  (fromObject_missing_defaults cfgExample [("zzz", .num 1)] "auto_save").2 (by decide)

theorem valsMatch_valNat (o : JsObject) :
    ∀ L : List BitMap, (∀ f ∈ L, ValWithin o f) →
      ValsMatch o L (L.map (valNat o)) ∧ FitsWidths L (L.map (valNat o)) := by
  intro L
  induction L with
  | nil => exact fun _ => ⟨trivial, trivial⟩
  | cons f rest ih =>
    intro h
    obtain ⟨ihm, ihf⟩ := ih (fun g hg => h g (by simp [hg]))
    have hf := h f (by simp)
    unfold ValWithin at hf
    have key : fieldVal o f = ((valNat o f : Nat) : ℚ) ∧ valNat o f < 2 ^ f.bits := by
      cases hl : objLookup o f.name with
      | none =>
        rw [hl] at hf
        rw [valNat, fieldVal, hl]
        refine ⟨by norm_num [orZero], ?_⟩
        simpa [orZero] using Nat.two_pow_pos f.bits
      | some val =>
        cases val with
        | num q2 =>
          rw [hl] at hf
          obtain ⟨hden, hpos, hlt⟩ := hf
          have hcpow : (((2 : Nat) ^ f.bits : Nat) : Int) = (2 : Int) ^ f.bits := by
            push_cast
            ring
          have hq2 : q2 = ((q2.num.toNat : Nat) : ℚ) := by
            have h2 : ((q2.num.toNat : Nat) : Int) = q2.num := Int.toNat_of_nonneg hpos
            have h3 : ((q2.num.toNat : Nat) : ℚ) = ((q2.num : Int) : ℚ) := by
              exact_mod_cast congrArg (fun z : Int => (z : ℚ)) h2
            rw [h3, Rat.coe_int_num_of_den_eq_one hden]
          rw [valNat, fieldVal, hl]
          refine ⟨by simpa [orZero] using hq2, ?_⟩
          simp only [orZero]
          omega
        | bool b =>
          rw [hl] at hf
          rw [valNat, fieldVal, hl]
          cases b
          · refine ⟨by norm_num [orZero], ?_⟩
            simpa [orZero] using Nat.two_pow_pos f.bits
          · refine ⟨by norm_num [orZero], ?_⟩
            simp only [orZero]
            simpa using hf
    exact ⟨⟨key.1, ihm⟩, ⟨key.2, ihf⟩⟩

/-- C4 (corrected): for a schema of total width at most 31 and an input
mapping whose values are booleans or nonnegative integers within each
field's declared width, `fromObject` succeeds with a nonnegative integer.
For total width 32 the composition can set bit 31, and the JS `|` then
yields its negative signed 32-bit reading (see the counterexample), so the
claim's "never negative, even with bit 31 set" does not hold. -/
theorem fromObject_nonneg_amended (cb : ConfigBits) (o : JsObject)
    (hsum : sumBits cb.bitMap ≤ 31)
    (hvals : ∀ f ∈ cb.bitMap, ValWithin o f) :
    cb.fromObject (.obj o) = .ok (fromObjectLoop o cb.bitMap 0 0) ∧
    0 ≤ fromObjectLoop o cb.bitMap 0 0 := by
  refine ⟨rfl, ?_⟩
  obtain ⟨hvm, hfw⟩ := valsMatch_valNat o cb.bitMap hvals
  have hpow : (2 : Nat) ^ sumBits cb.bitMap ≤ 2 ^ 31 :=
    Nat.pow_le_pow_right (by norm_num) hsum
  have hws := wsum_lt cb.bitMap (cb.bitMap.map (valNat o)) 0 hfw
  rw [Nat.zero_add] at hws
  have henc := fromObjectLoop_eq o cb.bitMap (cb.bitMap.map (valNat o)) 0 0 hvm hfw
    (by norm_num) (by omega)
  rw [Nat.cast_zero] at henc
  rw [henc]
  exact Int.natCast_nonneg _

/-- C4 witness: the amended nonnegativity on the 4-bit concrete schema. -/
theorem fromObject_nonneg_amended_witness :
    cfgExample.fromObject (.obj [("auto_save", .bool true), ("indent_type", .num 0),
        ("indent_size", .num 3)]) =
      .ok (fromObjectLoop [("auto_save", .bool true), ("indent_type", .num 0),
        ("indent_size", .num 3)] cfgExample.bitMap 0 0) ∧
    0 ≤ fromObjectLoop [("auto_save", .bool true), ("indent_type", .num 0),
        ("indent_size", .num 3)] cfgExample.bitMap 0 0 :=
  fromObject_nonneg_amended cfgExample
    [("auto_save", .bool true), ("indent_type", .num 0), ("indent_size", .num 3)]
    (by decide) (by decide)

/-- C4 counterexample: on the valid 16+16-bit schema, the in-width values
`{a: 0, b: 32768}` encode to the negative integer `-2^31` — bit 31 of the
composition is set and the JS `|` returns its signed reading. -/
theorem fromObject_nonneg_counterexample :
    cfgAB.fromObject (.obj [("a", .num 0), ("b", .num 32768)]) = .ok (-2147483648) ∧
    (-2147483648 : Int) < 0 := by
  decide

theorem toMapLoop_eq_toObjectLoop (q : ℚ) :
    ∀ (L : List BitMap) (pos : Nat) (acc : JsObject),
      toMapLoop q L pos acc = toObjectLoop q L pos acc := by
  intro L
  induction L with
  | nil => intro pos acc; rfl
  | cons f rest ih =>
    intro pos acc
    rw [toMapLoop, toObjectLoop, ih]

theorem toMap_eq_toObject (cb : ConfigBits) (x : JsInput) : cb.toMap x = cb.toObject x := by
  cases x with
  | num q =>
    simp only [ConfigBits.toMap, ConfigBits.toObject]
    by_cases h : q > 4294967295 ∨ q < -2147483648
    · rw [if_pos h, if_pos h]
    · rw [if_neg h, if_neg h, toMapLoop_eq_toObjectLoop]
  | boolv b => rfl
  | str s => rfl
  | obj o => rfl
  | undef => rfl
  | nullv => rfl

theorem objSet_keys_pred (P : String → Prop) (o : JsObject) (k : String) (v : ConfigValue)
    (ho : ∀ p ∈ o, P p.1) (hk : P k) : ∀ p ∈ objSet o k v, P p.1 := by
  intro p hp
  rw [objSet] at hp
  split at hp
  · obtain ⟨orig, horig, heq⟩ := List.mem_map.mp hp
    by_cases h2 : orig.1 = k
    · rw [if_pos h2] at heq
      rw [← heq]
      exact hk
    · rw [if_neg h2] at heq
      rw [← heq]
      exact ho orig horig
  · rcases List.mem_append.mp hp with h | h
    · exact ho p h
    · have hpk : p = (k, v) := by simpa using h
      rw [hpk]
      exact hk

theorem toObjectLoop_keys (q : ℚ) (P : String → Prop) :
    ∀ (L : List BitMap) (pos : Nat) (acc : JsObject),
      (∀ p ∈ acc, P p.1) → (∀ f ∈ L, P f.name) →
      ∀ p ∈ toObjectLoop q L pos acc, P p.1 := by
  intro L
  induction L with
  | nil =>
    intro pos acc hacc _
    exact hacc
  | cons f rest ih =>
    intro pos acc hacc hL
    rw [toObjectLoop]
    exact ih (pos + f.bits) _
      (objSet_keys_pred P acc f.name _ hacc (hL f (by simp)))
      (fun g hg => hL g (by simp [hg]))

theorem objEntries_of_no_index (o : JsObject)
    (h : ∀ p ∈ o, isArrayIndex p.1 = false) : objEntries o = o := by
  rw [objEntries]
  have h1 : o.filter (fun p => isArrayIndex p.1) = [] := by
    rw [List.filter_eq_nil_iff]
    intro p hp
    simp [h p hp]
  have h2 : o.filter (fun p => !isArrayIndex p.1) = o := by
    rw [List.filter_eq_self]
    intro p hp
    simp [h p hp]
  rw [h1, h2]
  rfl

/-- C8 (corrected): `toMap` and `toObject` run the identical loop with the
identical input checks, so they fail under exactly the same conditions with
the same errors, and they build the same entries in the same insertion
order. The observable entry sequence of the returned plain object
(`Object.entries` order) equals the `Map`'s whenever no field name is an
array-index string; for array-index names, object enumeration reorders them
numerically first (see the counterexample). -/
theorem toMap_toObject_equiv_amended (cb : ConfigBits) (x : JsInput) :
    (∀ e, cb.toObject x = .error e ↔ cb.toMap x = .error e) ∧
    ((∀ f ∈ cb.bitMap, isArrayIndex f.name = false) →
      Except.map objEntries (cb.toObject x) = cb.toMap x) := by
  have heq := toMap_eq_toObject cb x
  refine ⟨fun e => by rw [heq], fun hnames => ?_⟩
  rw [heq]
  cases x with
  | num q =>
    simp only [ConfigBits.toObject]
    by_cases h : q > 4294967295 ∨ q < -2147483648
    · rw [if_pos h]
      rfl
    · rw [if_neg h]
      simp only [Except.map]
      congr 1
      apply objEntries_of_no_index
      exact toObjectLoop_keys q (fun s => isArrayIndex s = false) cb.bitMap 0 []
        (by intro p hp; cases hp) hnames
  | boolv b => rfl
  | str s => rfl
  | obj o => rfl
  | undef => rfl
  | nullv => rfl

/-- C8 witness: on the concrete schema (no array-index names), the object's
entry sequence for input 13 equals the `Map`'s. -/
theorem toMap_toObject_equiv_amended_witness :
    Except.map objEntries (cfgExample.toObject (.num 13)) = cfgExample.toMap (.num 13) :=
  (toMap_toObject_equiv_amended cfgExample (.num 13)).2 (by decide)

/-- C8 counterexample: with the array-index field names "1" then "0", the
plain object enumerates `("0", …)` before `("1", …)` while the `Map` keeps
the schema's insertion order — the two decodes do not produce the same
sequence of pairs. -/
theorem toMap_toObject_equiv_counterexample :
    Except.map objEntries (cfgNum.toObject (.num 1)) =
      .ok [("0", .num 0), ("1", .num 1)] ∧
    cfgNum.toMap (.num 1) = .ok [("1", .num 1), ("0", .num 0)] ∧
    Except.map objEntries (cfgNum.toObject (.num 1)) ≠ cfgNum.toMap (.num 1) := by
  decide

theorem jsAnd_mask_int (x : Int) (b : Nat) (hb : b ≤ 31) :
    jsAnd x (2 ^ b - 1) = x % 2 ^ b := by
  have h1 : (1 : Nat) ≤ 2 ^ b := Nat.one_le_two_pow
  have hb31 : (2 : Nat) ^ b ≤ 2 ^ 31 := Nat.pow_le_pow_right (by norm_num) hb
  have hmask : ((2 : Int) ^ b - 1) = (((2 ^ b - 1 : Nat)) : Int) := by
    rw [Nat.cast_sub h1]
    push_cast
    ring
  have hmod := Nat.mod_lt (toUint32 x) (Nat.two_pow_pos b)
  rw [jsAnd, hmask, toUint32_natCast (by omega), Nat.and_pow_two_sub_one_eq_mod,
      ofUint32_of_lt (by omega)]
  have hun : ((toUint32 x : Nat) : Int) = x % 4294967296 := by
    rw [toUint32]
    omega
  have hcast : ((toUint32 x % 2 ^ b : Nat) : Int) =
      ((toUint32 x : Nat) : Int) % (((2 : Nat) ^ b : Nat) : Int) := by
    push_cast
    rfl
  have hd : (((2 : Nat) ^ b : Nat) : Int) = (2 : Int) ^ b := by
    push_cast
    ring
  rw [hcast, hun, hd]
  have hdvd : ((2 : Int) ^ b ∣ 4294967296) := ⟨2 ^ (32 - b), by
    rw [← pow_add]
    have hexp : b + (32 - b) = 32 := by omega
    rw [hexp]
    norm_num⟩
  exact Int.emod_emod_of_dvd x hdvd

theorem decode_extract_int (v : Int) (pos b : Nat) (hv1 : -2147483648 ≤ v)
    (hv2 : v < 4294967296) (hpb : pos + b ≤ 32) (hb : b ≤ 31) :
    jsAnd (jsShr ((v : Int) : ℚ) pos) (2 ^ b - 1) = v / 2 ^ pos % 2 ^ b := by
  rw [jsShr, toInt32Q, jsTrunc_intCast]
  rcases Nat.lt_or_ge pos 32 with h32 | h32
  · rw [Nat.mod_eq_of_lt h32]
    have hppos : (0 : Int) < 2 ^ pos := by positivity
    by_cases hv31 : v < 2147483648
    · rw [toInt32_of_range hv1 hv31, jsAnd_mask_int _ b hb]
    · have ht : toInt32 v = v - 4294967296 := by
        unfold toInt32 ofUint32 toUint32
        split <;> omega
      rw [ht]
      have hsplit : (4294967296 : Int) = 2 ^ (32 - pos) * 2 ^ pos := by
        rw [← pow_add]
        have hexp : 32 - pos + pos = 32 := by omega
        rw [hexp]
        norm_num
      have hdieq : (v - 4294967296) / (2 : Int) ^ pos = v / 2 ^ pos - 2 ^ (32 - pos) := by
        rw [hsplit, sub_eq_add_neg, ← neg_mul, Int.add_mul_ediv_right _ _ (ne_of_gt hppos)]
        ring
      rw [hdieq, jsAnd_mask_int _ b hb]
      have hsplit2 : (2 : Int) ^ (32 - pos) = 2 ^ (32 - pos - b) * 2 ^ b := by
        rw [← pow_add]
        congr 1
        omega
      rw [hsplit2, sub_eq_add_neg, ← neg_mul, Int.add_mul_emod_self]
  · have hb0 : b = 0 := by omega
    have hp32 : pos = 32 := by omega
    subst hb0
    subst hp32
    have hz : jsAnd (toInt32 v / 2 ^ (32 % 32)) (2 ^ 0 - 1) = 0 := by
      rw [jsAnd]
      have hm : ((2 : Int) ^ 0 - 1) = 0 := by norm_num
      rw [hm]
      have h0 : toUint32 0 = 0 := by decide
      rw [h0, Nat.and_zero]
      rfl
    rw [hz, pow_zero, Int.emod_one]

theorem decodedOK_decode (v : Int) (hv1 : -2147483648 ≤ v) (hv2 : v < 4294967296) :
    ∀ (L : List BitMap) (pos : Nat) (pre : JsObject),
      (fieldNames L).Nodup →
      (∀ f ∈ L, f.dataType = DType.boolean → f.bits = 1) →
      (∀ f ∈ L, objLookup pre f.name = none) →
      pos + sumBits L ≤ 32 →
      DecodedOK (pre ++ decodeList ((v : Int) : ℚ) L pos) v L pos := by
  intro L
  induction L with
  | nil =>
    intro pos pre _ _ _ _
    trivial
  | cons f rest ih =>
    intro pos pre hnd hwf hfresh hsum
    rw [fieldNames_cons, List.nodup_cons] at hnd
    rw [sumBits] at hsum
    have hf : objLookup pre f.name = none := hfresh f (by simp)
    rw [decodeList]
    refine ⟨?head, ?tail⟩
    case head =>
      intro hble
      have hlk : objLookup (pre ++ (f.name, decVal ((v : Int) : ℚ) f pos) ::
          decodeList ((v : Int) : ℚ) rest (pos + f.bits)) f.name
          = some (decVal ((v : Int) : ℚ) f pos) := by
        rw [objLookup_append_of_none pre _ _ hf, objLookup_cons_self]
      rw [hlk]
      have hext := decode_extract_int v pos f.bits hv1 hv2 (by omega) hble
      simp only [decVal, specFieldValue]
      by_cases hbool : f.dataType = DType.boolean
      · have hb1 : f.bits = 1 := hwf f (by simp) hbool
        rw [if_pos hbool, if_pos hbool]
        rw [hb1] at hext ⊢
        rw [hext]
        have hmod : v / 2 ^ pos % 2 ^ 1 = 0 ∨ v / 2 ^ pos % 2 ^ 1 = 1 := by omega
        rcases hmod with h | h <;> rw [h] <;> rfl
      · rw [if_neg hbool, if_neg hbool, hext]
    case tail =>
      rw [List.append_cons]
      apply ih (pos + f.bits) _ hnd.2 (fun g hg => hwf g (by simp [hg])) ?fresh (by omega)
      case fresh =>
        intro g hg
        have hgname : g.name ≠ f.name := by
          intro heq
          exact hnd.1 (heq ▸ List.mem_map_of_mem BitMap.name hg)
        have hgacc : objLookup pre g.name = none := hfresh g (by simp [hg])
        rw [objLookup_append_of_none pre _ _ hgacc,
            objLookup_cons_ne _ _ _ _ hgname]
        rfl

/-- C7 (corrected): for every accepted integer input and every field of
width at most 31, the decoded value is exactly the spec's formula — the
input arithmetically shifted right by the field's cumulative offset, masked
with `2^width - 1`, with Boolean fields reading the extracted bit as a
truth value. A width-32 field (necessarily the only field) instead yields
the signed 32-bit reinterpretation of that value (see the counterexample). -/
theorem decode_formula_amended (cb : ConfigBits) (v : Int)
    (hv1 : -2147483648 ≤ v) (hv2 : v ≤ 4294967295)
    (hwf : ∀ f ∈ cb.bitMap, f.dataType = DType.boolean → f.bits = 1)
    (hnd : (fieldNames cb.bitMap).Nodup)
    (hsum : sumBits cb.bitMap ≤ 32)
    (o : JsObject) (ho : cb.toObject (.num ((v : Int) : ℚ)) = .ok o) :
    DecodedOK o v cb.bitMap 0 := by
  have hguard : ¬(((v : Int) : ℚ) > 4294967295 ∨ ((v : Int) : ℚ) < -2147483648) := by
    push_neg
    refine ⟨?_, ?_⟩
    · exact_mod_cast hv2
    · exact_mod_cast hv1
  simp only [ConfigBits.toObject] at ho
  rw [if_neg hguard] at ho
  rw [toObjectLoop_append ((v : Int) : ℚ) cb.bitMap 0 [] hnd (by intro f _; rfl),
      List.nil_append] at ho
  obtain rfl : decodeList ((v : Int) : ℚ) cb.bitMap 0 = o := by
    cases ho
    rfl
  have := decodedOK_decode v hv1 (by omega) cb.bitMap 0 [] hnd hwf (by intro f _; rfl)
    (by omega)
  rwa [List.nil_append] at this

/-- C7 witness: the per-field formula on the concrete schema at input 13. -/
theorem decode_formula_amended_witness :
    DecodedOK [("auto_save", .bool true), ("indent_type", .num 0), ("indent_size", .num 3)]
      13 cfgExample.bitMap 0 :=
  decode_formula_amended cfgExample 13 (by norm_num) (by norm_num) (by decide) (by decide)
    (by decide) _ (by decide)

/-- C7 counterexample: on the single 32-bit field schema at input `2^31`,
the claim's formula yields the unsigned value `2^31`, but the code decodes
the field to `-2^31` — the signed 32-bit reading. -/
theorem decode_formula_counterexample :
    cfg32.toObject (.num 2147483648) = .ok [("x", .num (-2147483648))] ∧
    specFieldValue ⟨"x", 32, .number⟩ 2147483648 0 = .num 2147483648 ∧
    ConfigValue.num (-2147483648) ≠ .num 2147483648 := by
  refine ⟨by decide, by decide, by decide⟩

